/-
Verification of the romba depot/index core against its specification.

The definitions below are a shallow embedding of the Go sources:
  * `db/kv.go`          — the six-map key/value index (`kvStore`, `kvBatch`,
                          `appendUniqueSha1`, `IndexRom`, `IndexDat`,
                          `DatsForRom`, `GetDat`);
  * `depot.go` (part_000) — the multi-root depot (`reserveRoot`,
                          `SHA1InDepot`, `OpenRomGZ`, `archiveWorker.archive`,
                          `writeResumeLogEntry`);
  * `purge.go` (part_001) — the purge worker (as a caller of `SHA1InDepot`).

Byte strings are modelled as `List Nat`; a union-map value (a concatenation
of 20-byte SHA1 digests scanned in `sha1.Size` steps) is modelled in its
chunked view as a `List Bytes`, one element per 20-byte digest, so the Go
loops `for i := 0; i < len(v); i += sha1.Size` become list recursion.
External collaborators (gob encoding, SHA1, the gzip compressor, the
filesystem) are passed in as explicit parameters or finite association
lists.
-/
import Mathlib

/-- A byte string (Go `[]byte`), one `Nat` per byte. -/
abbrev Bytes := List Nat

/-- The chunked view of a union-map value: one element per 20-byte digest. -/
abbrev Chunks := List Bytes

/-- Association-list lookup, modelling `KVStore.Get`: `none` is Go's `nil`
result for an absent key. -/
def alGet {κ α : Type} [DecidableEq κ] : List (κ × α) → κ → Option α
  | [], _ => none
  | (k', v) :: m, k => if k = k' then some v else alGet m k

/-- Association-list update, modelling `KVStore.Set`: the new binding
shadows any previous one. -/
def alSet {κ α : Type} (m : List (κ × α)) (k : κ) (v : α) : List (κ × α) :=
  (k, v) :: m

/-- `appendUniqueSha1` from `db/kv.go`: scan `src` in 20-byte steps and
append to `dst` only the digests not already present in `dst` (the inner
loop over `dst` is the membership scan). -/
def appendUniqueSha1 (dst : Chunks) : Chunks → Chunks
  | [] => dst
  | s :: rest =>
    if s ∈ dst then appendUniqueSha1 dst rest
    else appendUniqueSha1 (dst ++ [s]) rest

theorem appendUniqueSha1_nil :
    ∀ dst, appendUniqueSha1 dst [] = dst := fun _ => rfl

/-- The result of `appendUniqueSha1` is `dst` followed by a duplicate-free
tail of digests drawn from `src`, none of which occurred in `dst`. -/
theorem appendUniqueSha1_decomp (src : Chunks) : ∀ dst : Chunks,
    ∃ t : Chunks, appendUniqueSha1 dst src = dst ++ t ∧ t.Nodup ∧
      ∀ a ∈ t, a ∈ src ∧ a ∉ dst := by
  induction src with
  | nil => intro dst; exact ⟨[], by simp [appendUniqueSha1]⟩
  | cons s rest ih =>
    intro dst
    by_cases hs : s ∈ dst
    · obtain ⟨t, ht, hnd, hmem⟩ := ih dst
      refine ⟨t, ?_, hnd, ?_⟩
      · simpa [appendUniqueSha1, hs] using ht
      · intro a ha
        exact ⟨List.mem_cons_of_mem _ (hmem a ha).1, (hmem a ha).2⟩
    · obtain ⟨t, ht, hnd, hmem⟩ := ih (dst ++ [s])
      refine ⟨s :: t, ?_, ?_, ?_⟩
      · simpa [appendUniqueSha1, hs, List.append_assoc] using ht
      · refine List.nodup_cons.2 ⟨fun hst => ?_, hnd⟩
        have := (hmem s hst).2
        simp at this
      · intro a ha
        rcases List.mem_cons.1 ha with h | h
        · subst h; exact ⟨List.mem_cons_self _ _, hs⟩
        · refine ⟨List.mem_cons_of_mem _ (hmem a h).1, fun had => ?_⟩
          exact (hmem a h).2 (List.mem_append_left _ had)

/-- Membership in the result of `appendUniqueSha1`. -/
theorem mem_appendUniqueSha1 {a : Bytes} {dst src : Chunks}
    (h : a ∈ appendUniqueSha1 dst src) : a ∈ dst ∨ a ∈ src := by
  obtain ⟨t, ht, _, hmem⟩ := appendUniqueSha1_decomp src dst
  rw [ht] at h
  rcases List.mem_append.1 h with h | h
  · exact Or.inl h
  · exact Or.inr (hmem a h).1

/-- If every digest of `src` is already in `dst`, nothing is appended. -/
theorem appendUniqueSha1_subset (src : Chunks) : ∀ dst : Chunks,
    (∀ a ∈ src, a ∈ dst) → appendUniqueSha1 dst src = dst := by
  induction src with
  | nil => intro dst _; rfl
  | cons s rest ih =>
    intro dst h
    have hs : s ∈ dst := h s (List.mem_cons_self _ _)
    simp only [appendUniqueSha1, if_pos hs]
    exact ih dst fun a ha => h a (List.mem_cons_of_mem _ ha)

/-- A duplicate-free current value stays duplicate-free. -/
theorem appendUniqueSha1_nodup {dst src : Chunks} (h : dst.Nodup) :
    (appendUniqueSha1 dst src).Nodup := by
  obtain ⟨t, ht, hnd, hmem⟩ := appendUniqueSha1_decomp src dst
  rw [ht]
  exact List.Nodup.append h hnd (fun a had hat => (hmem a hat).2 had)

/-! ## Data model (`types.Rom`, `types.Game`, `types.Dat`) -/

/-- `types.Rom`. `crc`/`md5`/`sha1` are Go byte slices whose `nil` is
`none`; a `sha1` value may hold several concatenated 20-byte digests
(a collision set), hence plain `Bytes`. -/
structure Rom where
  name : String
  size : Int
  crc : Option Bytes
  md5 : Option Bytes
  sha1 : Option Bytes
  path : String
deriving DecidableEq

/-- `types.Game`. -/
structure Game where
  name : String
  description : String
  roms : List Rom
deriving DecidableEq

/-- `types.Dat`. -/
structure Dat where
  name : String
  description : String
  path : String
  artificial : Bool
  generation : Int
  games : List Game
deriving DecidableEq

/-! ## The six-map index (`kvStore` in `db/kv.go`)

The abstract `KVStore` backend is an ordered map; it is modelled as an
association list.  The `dats` map stores serialized Dat bytes; the five
digest maps store union values in their chunked view. -/

/-- The state of a `kvStore`: the generation counter and the six maps
(`datsDB`, `crcDB`, `md5DB`, `sha1DB`, `crcsha1DB`, `md5sha1DB`). -/
structure KVStoreState where
  generation : Int
  datsDB : List (Bytes × Bytes)
  crcDB : List (Bytes × Chunks)
  md5DB : List (Bytes × Chunks)
  sha1DB : List (Bytes × Chunks)
  crcsha1DB : List (Bytes × Chunks)
  md5sha1DB : List (Bytes × Chunks)
deriving DecidableEq

/-- A pending operation of a `KVBatch` on a union map.  `IndexRom` and
`IndexDat` only ever call `Set` and `Append` on these batches. -/
inductive UOp where
  | uset (k : Bytes) (v : Chunks)
  | uappend (k : Bytes) (v : Chunks)
deriving DecidableEq

/-- The value chunks carried by a pending union-map operation. -/
def UOp.chunks : UOp → Chunks
  | .uset _ v => v
  | .uappend _ v => v

/-- Applying one pending operation to a union map at `WriteBatch` time.
Modelled from the spec: `append(key, value)` is "append-union with
de-duplication on fixed 20-byte boundaries ... reading current value,
merging, and writing back within the batch" (the concrete store backend
is not under src/); the merge is `appendUniqueSha1` from `db/kv.go`. -/
def applyUOp (m : List (Bytes × Chunks)) : UOp → List (Bytes × Chunks)
  | .uset k v => alSet m k v
  | .uappend k v => alSet m k (appendUniqueSha1 ((alGet m k).getD []) v)

/-- `KVStore.WriteBatch` on a union map: apply the pending operations in
order. -/
def applyUOps (m : List (Bytes × Chunks)) (ops : List UOp) : List (Bytes × Chunks) :=
  ops.foldl applyUOp m

/-- `KVStore.WriteBatch` on the `dats` map (only `Set` is ever issued on
`datsBatch` by the indexing code). -/
def applyDatsOps (m : List (Bytes × Bytes)) (ops : List (Bytes × Bytes)) : List (Bytes × Bytes) :=
  ops.foldl (fun m' p => alSet m' p.1 p.2) m

/-- A `kvBatch`: the pending operations of the six sub-batches plus the
pending-byte counter `size`. -/
structure KvBatch where
  datsBatch : List (Bytes × Bytes)
  crcBatch : List UOp
  md5Batch : List UOp
  sha1Batch : List UOp
  crcsha1Batch : List UOp
  md5sha1Batch : List UOp
  size : Int
deriving DecidableEq

/-- `kvStore.StartBatch`: all sub-batches empty, size zero. -/
def emptyBatch : KvBatch :=
  ⟨[], [], [], [], [], [], 0⟩

/-- `kvBatch.Flush`: a no-op when `size == 0`, otherwise commit all six
sub-batches (in source order: dats, crc, md5, sha1, crcsha1, md5sha1). -/
def flushBatch (s : KVStoreState) (b : KvBatch) : KVStoreState :=
  if b.size = 0 then s
  else
    { s with
      datsDB := applyDatsOps s.datsDB b.datsBatch
      crcDB := applyUOps s.crcDB b.crcBatch
      md5DB := applyUOps s.md5DB b.md5Batch
      sha1DB := applyUOps s.sha1DB b.sha1Batch
      crcsha1DB := applyUOps s.crcsha1DB b.crcsha1Batch
      md5sha1DB := applyUOps s.md5sha1DB b.md5sha1Batch }

/-- `kvStore.GetDat`: absent bytes decode to no Dat; present bytes that
fail to gob-decode are an error (`datDecoder.Decode` result is returned
as-is).  `decode` stands for the external gob decoder, `none` meaning a
decode failure. -/
def getDat (dats : List (Bytes × Bytes)) (decode : Bytes → Option Dat)
    (k : Bytes) : Except String (Option Dat) :=
  match alGet dats k with
  | none => .ok none
  | some bs =>
    match decode bs with
    | some d => .ok (some d)
    | none => .error "decode error"

/-- The dereferencing loop of `kvStore.DatsForRom`: walk the resolved
Dat-SHA1 chunks in order, `GetDat` each, keep the decodable ones, and
propagate the first error. -/
def collectDats (dats : List (Bytes × Bytes)) (decode : Bytes → Option Dat) :
    Chunks → Except String (List Dat)
  | [] => .ok []
  | c :: rest =>
    match getDat dats decode c with
    | .error e => .error e
    | .ok none => collectDats dats decode rest
    | .ok (some d) =>
      match collectDats dats decode rest with
      | .error e => .error e
      | .ok ds => .ok (d :: ds)

/-- The key actually passed to `sha1DB` for a rom (`rom.Sha1`, with Go's
`nil` slice read as the empty key). -/
def romSha1Key (rom : Rom) : Bytes := rom.sha1.getD []

/-- `kvStore.DatsForRom`: resolve Dat-SHA1s from `sha1DB` when
`rom.Sha1 != nil`, falling back to `md5DB` when the result is still
`nil`, then to `crcDB`; dereference the winning value through `GetDat`. -/
def datsForRom (s : KVStoreState) (decode : Bytes → Option Dat) (rom : Rom) :
    Except String (List Dat) :=
  let d1 : Option Chunks :=
    match rom.sha1 with
    | some k => alGet s.sha1DB k
    | none => none
  let d2 : Option Chunks :=
    match rom.md5 with
    | some k => if d1 = none then alGet s.md5DB k else d1
    | none => d1
  let d3 : Option Chunks :=
    match rom.crc with
    | some k => if d2 = none then alGet s.crcDB k else d2
    | none => d2
  match d3 with
  | none => .ok []
  | some chunks => collectDats s.datsDB decode chunks

/-- The per-rom body of the `!exists` loop of `kvBatch.IndexDat`: append
`sha1Bytes` to the union maps keyed by the rom's digests, and the rom's
SHA1 to the digest cross-links. -/
def indexDatRom (sb : Bytes) (b : KvBatch) (r : Rom) : KvBatch :=
  let b1 :=
    match r.sha1 with
    | some ks => { b with sha1Batch := b.sha1Batch ++ [.uappend ks [sb]], size := b.size + 20 }
    | none => b
  let b2 :=
    match r.md5 with
    | some km =>
      let b' := { b1 with md5Batch := b1.md5Batch ++ [.uappend km [sb]], size := b1.size + 20 }
      match r.sha1 with
      | some ks => { b' with md5sha1Batch := b'.md5sha1Batch ++ [.uappend km [ks]], size := b'.size + 20 }
      | none => b'
    | none => b1
  match r.crc with
  | some kc =>
    let b' := { b2 with crcBatch := b2.crcBatch ++ [.uappend kc [sb]], size := b2.size + 20 }
    match r.sha1 with
    | some ks => { b' with crcsha1Batch := b'.crcsha1Batch ++ [.uappend kc [ks]], size := b'.size + 20 }
    | none => b'
  | none => b2

/-- The games/roms traversal of `kvBatch.IndexDat`. -/
def indexDatGames (sb : Bytes) (b : KvBatch) (games : List Game) : KvBatch :=
  games.foldl (fun b' g => g.roms.foldl (indexDatRom sb) b') b

/-- The `exists` test of `kvBatch.IndexDat`: artificial Dats are always
treated as new, otherwise `datsDB.Exists(sha1Bytes)` on the committed
store decides. -/
def datExists (s : KVStoreState) (dat' : Dat) (sb : Bytes) : Bool :=
  if dat'.artificial then false else (alGet s.datsDB sb).isSome

/-- The unconditional `datsBatch.Set(sha1Bytes, buf.Bytes())` of
`kvBatch.IndexDat`, with its size accounting. -/
def indexDatSet (b : KvBatch) (sb enc : Bytes) : KvBatch :=
  { b with datsBatch := b.datsBatch ++ [(sb, enc)],
           size := b.size + (20 + (enc.length : Int)) }

/-- The body of `kvBatch.IndexDat` after the nil check, acting on the
generation-tagged Dat `dat'`. -/
def indexDatTagged (s : KVStoreState) (encode : Dat → Bytes) (b : KvBatch)
    (dat' : Dat) (sb : Bytes) : KvBatch :=
  if datExists s dat' sb then indexDatSet b sb (encode dat')
  else indexDatGames sb (indexDatSet b sb (encode dat')) dat'.games

/-- `kvBatch.IndexDat`: error on a nil `sha1Bytes`; tag the Dat with the
current generation; write the gob-encoded Dat into `datsBatch`
(overwriting); when the Dat is new, traverse its games and fill the union
maps.  `encode` stands for the external gob encoder. -/
def indexDat (s : KVStoreState) (encode : Dat → Bytes) (b : KvBatch)
    (dat : Dat) (sha1Bytes : Option Bytes) : Except String KvBatch :=
  match sha1Bytes with
  | none => .error "sha1 is nil"
  | some sb => .ok (indexDatTagged s encode b { dat with generation := s.generation } sb)

/-- The artificial Dat synthesized by `kvBatch.IndexRom` for a rom no Dat
references. -/
def artificialDat (s : KVStoreState) (rom : Rom) : Dat :=
  { name := "Artificial Dat for " ++ rom.name
    description := ""
    path := rom.path
    artificial := true
    generation := s.generation
    games := [{ name := "", description := "", roms := [rom] }] }

/-- The digest cross-link step of `kvBatch.IndexRom`: when the rom has a
SHA1, append it to `crcsha1Batch` under the rom's CRC and to
`md5sha1Batch` under the rom's MD5. -/
def indexRomCross (b : KvBatch) (rom : Rom) : KvBatch :=
  match rom.sha1 with
  | some ks =>
    let ba :=
      match rom.crc with
      | some kc => { b with crcsha1Batch := b.crcsha1Batch ++ [.uappend kc [ks]], size := b.size + 20 }
      | none => b
    match rom.md5 with
    | some km => { ba with md5sha1Batch := ba.md5sha1Batch ++ [.uappend km [ks]], size := ba.size + 20 }
    | none => ba
  | none => b

/-- The `sha1s` value built by `kvBatch.IndexRom` when some Dat already
references the rom: the deduplicated union of the `md5DB` and `crcDB`
values for the rom's weaker hashes. -/
def weakUnion (s : KVStoreState) (rom : Rom) : Chunks :=
  let sha1s : Chunks := []
  let sha1s :=
    match rom.md5 with
    | some km =>
      let ss := (alGet s.md5DB km).getD []
      if ss.length > 0 then appendUniqueSha1 sha1s ss else sha1s
    | none => sha1s
  match rom.crc with
  | some kc =>
    let ss := (alGet s.crcDB kc).getD []
    if ss.length > 0 then appendUniqueSha1 sha1s ss else sha1s
  | none => sha1s

/-- `kvBatch.IndexRom`: declare the digest cross-links when the rom has a
SHA1; query `DatsForRom`; if some Dat references the rom and `sha1DB` has
no entry yet, set `sha1DB[rom.Sha1]` to the union of the Dat-SHA1s
reachable through the weaker hashes; otherwise synthesize an artificial
Dat and `IndexDat` it under the SHA1 of its gob encoding (`sha1Of` stands
for the external `crypto/sha1`). -/
def indexRomBatch (s : KVStoreState) (encode : Dat → Bytes)
    (sha1Of : Bytes → Bytes) (decode : Bytes → Option Dat)
    (b : KvBatch) (rom : Rom) : Except String KvBatch :=
  match datsForRom s decode rom with
  | .error e => .error e
  | .ok dats =>
    if dats.length > 0 then
      if ((alGet s.sha1DB (romSha1Key rom)).getD []).length = 0 then
        if (weakUnion s rom).length > 0 then
          .ok { indexRomCross b rom with
                sha1Batch := (indexRomCross b rom).sha1Batch ++
                  [.uset (romSha1Key rom) (weakUnion s rom)] }
        else .ok (indexRomCross b rom)
      else .ok (indexRomCross b rom)
    else
      indexDat s encode (indexRomCross b rom) (artificialDat s rom)
        (some (sha1Of (encode (artificialDat s rom))))

/-- `kvStore.IndexRom`: start a fresh batch, run `kvBatch.IndexRom`, and
close (flush) it. -/
def kvIndexRom (s : KVStoreState) (encode : Dat → Bytes)
    (sha1Of : Bytes → Bytes) (decode : Bytes → Option Dat)
    (rom : Rom) : Except String KVStoreState :=
  match indexRomBatch s encode sha1Of decode emptyBatch rom with
  | .error e => .error e
  | .ok b => .ok (flushBatch s b)

/-- `kvStore.IndexDat`: start a fresh batch, run `kvBatch.IndexDat`, and
close (flush) it. -/
def kvIndexDat (s : KVStoreState) (encode : Dat → Bytes)
    (dat : Dat) (sha1Bytes : Option Bytes) : Except String KVStoreState :=
  match indexDat s encode emptyBatch dat sha1Bytes with
  | .error e => .error e
  | .ok b => .ok (flushBatch s b)

/-! ## The depot (`Depot` in part_000) -/

/-- The mutable part of a `Depot`: the parallel arrays `roots`, `sizes`,
`maxSizes` and the cursor `start` (the mutex is implicit: every operation
here is a whole critical section). -/
structure DepotSt where
  roots : List String
  sizes : List Int
  maxSizes : List Int
  start : Nat
deriving DecidableEq

/-- The scan loop of `Depot.reserveRoot`, index `i` running from
`depot.start` to `len(depot.roots)`; returns the reserved index (if any)
together with the updated `sizes` and `start`. -/
def reserveLoop (roots : List String) (maxSizes : List Int) (sz : Int)
    (sizes : List Int) (start i : Nat) : Option Nat × List Int × Nat :=
  if i < roots.length then
    if sizes.getD i 0 + sz < maxSizes.getD i 0 then
      (some i, sizes.set i (sizes.getD i 0 + sz), start)
    else if maxSizes.getD i 0 ≤ sizes.getD i 0 then
      reserveLoop roots maxSizes sz sizes i (i + 1)
    else
      reserveLoop roots maxSizes sz sizes start (i + 1)
  else (none, sizes, start)
termination_by roots.length - i

/-- `Depot.reserveRoot`: scan from the cursor; the first root where
`size + sz < maxSize` gets `sz` committed; a root at or above its cap
drags the cursor forward; with no fitting root the call fails and the
depot "ran out of disk space". -/
def reserveRoot (d : DepotSt) (sz : Int) : Option Nat × DepotSt :=
  match reserveLoop d.roots d.maxSizes sz d.sizes d.start d.start with
  | (r, sizes', start') => (r, { d with sizes := sizes', start := start' })

/-- `getD` after an in-bounds `set` at the same index. -/
theorem getD_set_self : ∀ (l : List Int) (i : Nat) (v : Int), i < l.length →
    (l.set i v).getD i 0 = v
  | [], i, v, h => absurd h (by simp)
  | x :: xs, 0, v, _ => rfl
  | x :: xs, i + 1, v, h =>
    getD_set_self xs i v (Nat.lt_of_succ_lt_succ h)

/-- What a successful scan of `reserveLoop` guarantees: the returned index
is in range, at or after the probe index, the fit test held on the
untouched sizes, and the only size change is the commit at that index. -/
theorem reserveLoop_some (roots : List String) (maxSizes : List Int) (sz : Int)
    (sizes : List Int) : ∀ start i, ∀ j sizes' start',
    reserveLoop roots maxSizes sz sizes start i = (some j, sizes', start') →
    i ≤ j ∧ j < roots.length ∧ sizes.getD j 0 + sz < maxSizes.getD j 0 ∧
      sizes' = sizes.set j (sizes.getD j 0 + sz) := by
  intro start i
  induction start, i using reserveLoop.induct roots maxSizes sz sizes with
  | case1 start i hlt hfit =>
    intro j sizes' start' h
    rw [reserveLoop, if_pos hlt, if_pos hfit] at h
    simp only [Prod.mk.injEq, Option.some.injEq] at h
    obtain ⟨h1, h2, _⟩ := h
    subst h1
    exact ⟨Nat.le_refl _, hlt, hfit, h2.symm⟩
  | case2 start i hlt hfit hfull ih =>
    intro j sizes' start' h
    rw [reserveLoop, if_pos hlt, if_neg hfit, if_pos hfull] at h
    obtain ⟨h1, h2, h3⟩ := ih j sizes' start' h
    exact ⟨Nat.le_of_succ_le h1, h2, h3⟩
  | case3 start i hlt hfit hfull ih =>
    intro j sizes' start' h
    rw [reserveLoop, if_pos hlt, if_neg hfit, if_neg hfull] at h
    obtain ⟨h1, h2, h3⟩ := ih j sizes' start' h
    exact ⟨Nat.le_of_succ_le h1, h2, h3⟩
  | case4 start i hlt =>
    intro j sizes' start' h
    rw [reserveLoop, if_neg hlt] at h
    simp at h

/-- What a failed scan of `reserveLoop` guarantees: sizes are untouched,
and the cursor either kept its value or moved to an index at or after the
probe index whose root had already reached its cap. -/
theorem reserveLoop_none (roots : List String) (maxSizes : List Int) (sz : Int)
    (sizes : List Int) : ∀ start i, ∀ sizes' start',
    reserveLoop roots maxSizes sz sizes start i = (none, sizes', start') →
    sizes' = sizes ∧ (start' = start ∨
      (i ≤ start' ∧ maxSizes.getD start' 0 ≤ sizes.getD start' 0)) := by
  intro start i
  induction start, i using reserveLoop.induct roots maxSizes sz sizes with
  | case1 start i hlt hfit =>
    intro sizes' start' h
    rw [reserveLoop, if_pos hlt, if_pos hfit] at h
    simp at h
  | case2 start i hlt hfit hfull ih =>
    intro sizes' start' h
    rw [reserveLoop, if_pos hlt, if_neg hfit, if_pos hfull] at h
    obtain ⟨h1, h2⟩ := ih sizes' start' h
    refine ⟨h1, Or.inr ?_⟩
    rcases h2 with h2 | ⟨h2a, h2b⟩
    · subst h2; exact ⟨Nat.le_refl _, hfull⟩
    · exact ⟨Nat.le_of_succ_le h2a, h2b⟩
  | case3 start i hlt hfit hfull ih =>
    intro sizes' start' h
    rw [reserveLoop, if_pos hlt, if_neg hfit, if_neg hfull] at h
    obtain ⟨h1, h2⟩ := ih sizes' start' h
    refine ⟨h1, ?_⟩
    rcases h2 with h2 | ⟨h2a, h2b⟩
    · exact Or.inl h2
    · exact Or.inr ⟨Nat.le_of_succ_le h2a, h2b⟩
  | case4 start i hlt =>
    intro sizes' start' h
    rw [reserveLoop, if_neg hlt] at h
    simp only [Prod.mk.injEq] at h
    exact ⟨h.2.1.symm, Or.inl h.2.2.symm⟩

/-- **C2.** Admission safety of `Depot.reserveRoot`: a successful
reservation at index `i` happened because `sizes[i] + size < maxSizes[i]`
held on the pre-state, the commit added exactly `size` to `sizes[i]` and
changed nothing else in the size accounting, and immediately afterwards
`sizes[i] ≤ maxSizes[i]` (the parallel arrays of a depot have equal
length by construction in `NewDepot`). -/
theorem reserveRoot_admission_safety (d : DepotSt) (sz : Int) (i : Nat) (d' : DepotSt)
    (hlen : d.sizes.length = d.roots.length)
    (_hsz : 0 ≤ sz)
    (h : reserveRoot d sz = (some i, d')) :
    d.sizes.getD i 0 + sz < d.maxSizes.getD i 0 ∧
    d'.sizes = d.sizes.set i (d.sizes.getD i 0 + sz) ∧
    d'.sizes.getD i 0 = d.sizes.getD i 0 + sz ∧
    d'.maxSizes = d.maxSizes ∧
    d'.sizes.getD i 0 ≤ d'.maxSizes.getD i 0 := by
  unfold reserveRoot at h
  rcases hres : reserveLoop d.roots d.maxSizes sz d.sizes d.start d.start with ⟨r, sizes', start'⟩
  rw [hres] at h
  simp only [Prod.mk.injEq] at h
  obtain ⟨hr, hd⟩ := h
  subst hr
  obtain ⟨_, hj, hfit, hset⟩ :=
    reserveLoop_some d.roots d.maxSizes sz d.sizes d.start d.start i sizes' start' hres
  subst hset
  have hsz' : d'.sizes = d.sizes.set i (d.sizes.getD i 0 + sz) := by rw [← hd]
  have hmax : d'.maxSizes = d.maxSizes := by rw [← hd]
  have hgd : d'.sizes.getD i 0 = d.sizes.getD i 0 + sz := by
    rw [hsz']
    exact getD_set_self d.sizes i _ (hlen ▸ hj)
  refine ⟨hfit, hsz', hgd, hmax, ?_⟩
  rw [hgd, hmax]
  exact le_of_lt hfit

/-- Witness for C2 at a concrete depot: two empty roots capped at 100,
reserving 10 lands on root 0. -/
theorem reserveRoot_admission_safety_witness :
    (([0, 0] : List Int).length = (["a", "b"] : List String).length ∧ (0 : Int) ≤ 10) ∧
    ((⟨["a", "b"], [0, 0], [100, 100], 0⟩ : DepotSt).sizes.getD 0 0 + 10 <
        (⟨["a", "b"], [0, 0], [100, 100], 0⟩ : DepotSt).maxSizes.getD 0 0 ∧
      (⟨["a", "b"], [10, 0], [100, 100], 0⟩ : DepotSt).sizes =
        (⟨["a", "b"], [0, 0], [100, 100], 0⟩ : DepotSt).sizes.set 0
          ((⟨["a", "b"], [0, 0], [100, 100], 0⟩ : DepotSt).sizes.getD 0 0 + 10) ∧
      (⟨["a", "b"], [10, 0], [100, 100], 0⟩ : DepotSt).sizes.getD 0 0 =
        (⟨["a", "b"], [0, 0], [100, 100], 0⟩ : DepotSt).sizes.getD 0 0 + 10 ∧
      (⟨["a", "b"], [10, 0], [100, 100], 0⟩ : DepotSt).maxSizes =
        (⟨["a", "b"], [0, 0], [100, 100], 0⟩ : DepotSt).maxSizes ∧
      (⟨["a", "b"], [10, 0], [100, 100], 0⟩ : DepotSt).sizes.getD 0 0 ≤
        (⟨["a", "b"], [10, 0], [100, 100], 0⟩ : DepotSt).maxSizes.getD 0 0) :=
  ⟨⟨rfl, by decide⟩,
    reserveRoot_admission_safety ⟨["a", "b"], [0, 0], [100, 100], 0⟩ 10 0
      ⟨["a", "b"], [10, 0], [100, 100], 0⟩ rfl (by decide)
      (by simp [reserveRoot, reserveLoop])⟩

/-- **C10 (amended).** If `reserveRoot` fails with the out-of-space
error, the size accounting is unchanged and the cursor has not moved
backwards; when the cursor did move, its new position is the index of a
root whose size had already reached its maximum.  (The original claim's
stronger reading — that every root the cursor moved past was at its
maximum — is refuted by `reserveRoot_cursor_counterexample` below.) -/
theorem reserveRoot_failure_frame (d : DepotSt) (sz : Int) (d' : DepotSt)
    (h : reserveRoot d sz = (none, d')) :
    d'.sizes = d.sizes ∧ d'.maxSizes = d.maxSizes ∧ d.start ≤ d'.start ∧
    (d'.start ≠ d.start → d.maxSizes.getD d'.start 0 ≤ d.sizes.getD d'.start 0) := by
  unfold reserveRoot at h
  rcases hres : reserveLoop d.roots d.maxSizes sz d.sizes d.start d.start with ⟨r, sizes', start'⟩
  rw [hres] at h
  simp only [Prod.mk.injEq] at h
  obtain ⟨hr, hd⟩ := h
  subst hr
  obtain ⟨hsizes, hstart⟩ :=
    reserveLoop_none d.roots d.maxSizes sz d.sizes d.start d.start sizes' start' hres
  have hsz' : d'.sizes = d.sizes := by rw [← hd, hsizes]
  have hmax : d'.maxSizes = d.maxSizes := by rw [← hd]
  have hst : d'.start = start' := by rw [← hd]
  rcases hstart with h2 | ⟨h2a, h2b⟩
  · refine ⟨hsz', hmax, ?_, ?_⟩
    · rw [hst, h2]
    · intro hne; exact absurd (hst.trans h2) hne
  · exact ⟨hsz', hmax, hst ▸ h2a, fun _ => hst ▸ h2b⟩

/-- Counterexample to C10 as stated: with sizes `[5, 10]`, caps
`[10, 10]`, cursor `0` and request `6`, the reservation fails and the
cursor advances from `0` to `1`, moving past root `0` even though root
`0`'s size (5) had not reached its maximum (10). -/
theorem reserveRoot_cursor_counterexample :
    reserveRoot ⟨["a", "b"], [5, 10], [10, 10], 0⟩ 6 =
      (none, ⟨["a", "b"], [5, 10], [10, 10], 1⟩) ∧
    (0 : Nat) < 1 ∧
    ([5, 10] : List Int).getD 0 0 < ([10, 10] : List Int).getD 0 0 :=
  ⟨by simp [reserveRoot, reserveLoop], by decide, by decide⟩

/-- Witness for C10 (amended) at the same concrete depot. -/
theorem reserveRoot_failure_frame_witness :
    (⟨["a", "b"], [5, 10], [10, 10], 1⟩ : DepotSt).sizes =
        (⟨["a", "b"], [5, 10], [10, 10], 0⟩ : DepotSt).sizes ∧
    (⟨["a", "b"], [5, 10], [10, 10], 1⟩ : DepotSt).maxSizes =
        (⟨["a", "b"], [5, 10], [10, 10], 0⟩ : DepotSt).maxSizes ∧
    (⟨["a", "b"], [5, 10], [10, 10], 0⟩ : DepotSt).start ≤
        (⟨["a", "b"], [5, 10], [10, 10], 1⟩ : DepotSt).start ∧
    ((⟨["a", "b"], [5, 10], [10, 10], 1⟩ : DepotSt).start ≠
        (⟨["a", "b"], [5, 10], [10, 10], 0⟩ : DepotSt).start →
      (⟨["a", "b"], [5, 10], [10, 10], 0⟩ : DepotSt).maxSizes.getD
          (⟨["a", "b"], [5, 10], [10, 10], 1⟩ : DepotSt).start 0 ≤
        (⟨["a", "b"], [5, 10], [10, 10], 0⟩ : DepotSt).sizes.getD
          (⟨["a", "b"], [5, 10], [10, 10], 1⟩ : DepotSt).start 0) :=
  reserveRoot_failure_frame ⟨["a", "b"], [5, 10], [10, 10], 0⟩ 6
    ⟨["a", "b"], [5, 10], [10, 10], 1⟩ (by simp [reserveRoot, reserveLoop])

/-- **C1.** The union-append `appendUniqueSha1` deduplicates on digest
boundaries: starting from a duplicate-free current value `dst` (union-map
values are duplicate-free by the data-model invariant), every digest of
`src` occurs at most once in the result, the result is `dst` followed
only by digests that were not already present in `dst`, and appending a
digest set already contained in `dst` returns `dst` unchanged. -/
theorem appendUniqueSha1_union_dedup (dst src : Chunks) (h : dst.Nodup) :
    (appendUniqueSha1 dst src).Nodup ∧
    (∃ t, appendUniqueSha1 dst src = dst ++ t ∧ ∀ a ∈ t, a ∉ dst) ∧
    ((∀ a ∈ src, a ∈ dst) → appendUniqueSha1 dst src = dst) := by
  refine ⟨appendUniqueSha1_nodup h, ?_, appendUniqueSha1_subset src dst⟩
  obtain ⟨t, ht, _, hmem⟩ := appendUniqueSha1_decomp src dst
  exact ⟨t, ht, fun a ha => (hmem a ha).2⟩

/-- Witness for C1 at a concrete current value and appended value. -/
theorem appendUniqueSha1_union_dedup_witness :
    ([[1], [2]] : Chunks).Nodup ∧
    ((appendUniqueSha1 [[1], [2]] [[2], [3]]).Nodup ∧
      (∃ t, appendUniqueSha1 [[1], [2]] [[2], [3]] = [[1], [2]] ++ t ∧
        ∀ a ∈ t, a ∉ ([[1], [2]] : Chunks)) ∧
      ((∀ a ∈ ([[2], [3]] : Chunks), a ∈ ([[1], [2]] : Chunks)) →
        appendUniqueSha1 [[1], [2]] [[2], [3]] = [[1], [2]])) :=
  ⟨by decide, appendUniqueSha1_union_dedup [[1], [2]] [[2], [3]] (by decide)⟩

/-- The `sha1DB` tier consulted by `DatsForRom` (its value only read when
`rom.Sha1 != nil`). -/
def sha1Tier (s : KVStoreState) (rom : Rom) : Option Chunks :=
  match rom.sha1 with
  | some k => alGet s.sha1DB k
  | none => none

/-- The `md5DB` tier consulted by `DatsForRom`. -/
def md5Tier (s : KVStoreState) (rom : Rom) : Option Chunks :=
  match rom.md5 with
  | some k => alGet s.md5DB k
  | none => none

/-- The `crcDB` tier consulted by `DatsForRom`. -/
def crcTier (s : KVStoreState) (rom : Rom) : Option Chunks :=
  match rom.crc with
  | some k => alGet s.crcDB k
  | none => none

/-- When the `sha1DB` tier holds a value, `DatsForRom` dereferences
exactly that value (helper shared by the tier and error-handling
theorems). -/
theorem datsForRom_sha1_hit (s : KVStoreState) (decode : Bytes → Option Dat) (rom : Rom)
    (v : Chunks) (hv : sha1Tier s rom = some v) :
    datsForRom s decode rom = collectDats s.datsDB decode v := by
  unfold sha1Tier at hv
  rcases hs : rom.sha1 with _ | ks
  · rw [hs] at hv; exact absurd hv (by simp)
  · rw [hs] at hv
    have hv' : alGet s.sha1DB ks = some v := hv
    rcases hm : rom.md5 with _ | km <;> rcases hc : rom.crc with _ | kc <;>
      simp [datsForRom, hs, hm, hc, hv']

/-- **C4.** `DatsForRom` resolves Dat-SHA1s tier by tier: the `sha1DB`
tier (read only when `rom.Sha1` is present) wins when it holds a value;
otherwise the `md5DB` tier (read only when `rom.Md5` is present);
otherwise the `crcDB` tier; the winning tier's value alone is
dereferenced chunk by chunk through the `dats` map (`collectDats`), with
no union across tiers; with no tier present the result is the empty
list. -/
theorem datsForRom_tiered (s : KVStoreState) (decode : Bytes → Option Dat) (rom : Rom) :
    (∀ v, sha1Tier s rom = some v →
      datsForRom s decode rom = collectDats s.datsDB decode v) ∧
    (sha1Tier s rom = none → ∀ v, md5Tier s rom = some v →
      datsForRom s decode rom = collectDats s.datsDB decode v) ∧
    (sha1Tier s rom = none → md5Tier s rom = none → ∀ v, crcTier s rom = some v →
      datsForRom s decode rom = collectDats s.datsDB decode v) ∧
    (sha1Tier s rom = none → md5Tier s rom = none → crcTier s rom = none →
      datsForRom s decode rom = .ok []) := by
  refine ⟨fun v hv => datsForRom_sha1_hit s decode rom v hv, ?_, ?_, ?_⟩
  · intro h1 v hv
    unfold sha1Tier at h1
    unfold md5Tier at hv
    rcases hm : rom.md5 with _ | km
    · rw [hm] at hv; exact absurd hv (by simp)
    · rw [hm] at hv
      have hv' : alGet s.md5DB km = some v := hv
      rcases hs : rom.sha1 with _ | ks <;> rw [hs] at h1
      · rcases hc : rom.crc with _ | kc <;> simp [datsForRom, hs, hm, hc, hv']
      · have h1' : alGet s.sha1DB ks = none := h1
        rcases hc : rom.crc with _ | kc <;> simp [datsForRom, hs, hm, hc, hv', h1']
  · intro h1 h2 v hv
    unfold sha1Tier at h1
    unfold md5Tier at h2
    unfold crcTier at hv
    rcases hc : rom.crc with _ | kc
    · rw [hc] at hv; exact absurd hv (by simp)
    · rw [hc] at hv
      have hv' : alGet s.crcDB kc = some v := hv
      rcases hs : rom.sha1 with _ | ks <;> rw [hs] at h1 <;>
        rcases hm : rom.md5 with _ | km <;> rw [hm] at h2
      · simp [datsForRom, hs, hm, hc, hv']
      · have h2' : alGet s.md5DB km = none := h2
        simp [datsForRom, hs, hm, hc, hv', h2']
      · have h1' : alGet s.sha1DB ks = none := h1
        simp [datsForRom, hs, hm, hc, hv', h1']
      · have h1' : alGet s.sha1DB ks = none := h1
        have h2' : alGet s.md5DB km = none := h2
        simp [datsForRom, hs, hm, hc, hv', h1', h2']
  · intro h1 h2 h3
    unfold sha1Tier at h1
    unfold md5Tier at h2
    unfold crcTier at h3
    rcases hs : rom.sha1 with _ | ks <;> rw [hs] at h1 <;>
      rcases hm : rom.md5 with _ | km <;> rw [hm] at h2 <;>
      rcases hc : rom.crc with _ | kc <;> rw [hc] at h3
    · simp [datsForRom, hs, hm, hc]
    · have h3' : alGet s.crcDB kc = none := h3
      simp [datsForRom, hs, hm, hc, h3']
    · have h2' : alGet s.md5DB km = none := h2
      simp [datsForRom, hs, hm, hc, h2']
    · have h2' : alGet s.md5DB km = none := h2
      have h3' : alGet s.crcDB kc = none := h3
      simp [datsForRom, hs, hm, hc, h2', h3']
    · have h1' : alGet s.sha1DB ks = none := h1
      simp [datsForRom, hs, hm, hc, h1']
    · have h1' : alGet s.sha1DB ks = none := h1
      have h3' : alGet s.crcDB kc = none := h3
      simp [datsForRom, hs, hm, hc, h1', h3']
    · have h1' : alGet s.sha1DB ks = none := h1
      have h2' : alGet s.md5DB km = none := h2
      simp [datsForRom, hs, hm, hc, h1', h2']
    · have h1' : alGet s.sha1DB ks = none := h1
      have h2' : alGet s.md5DB km = none := h2
      have h3' : alGet s.crcDB kc = none := h3
      simp [datsForRom, hs, hm, hc, h1', h2', h3']

/-- A concrete store, rom and decoder for the C4 witness: the rom's SHA1
key resolves in `sha1DB` although `md5DB` would offer a different value. -/
def c4Store : KVStoreState :=
  { generation := 0
    datsDB := []
    crcDB := []
    md5DB := [([2], [[7]])]
    sha1DB := [([1], [[9]])]
    crcsha1DB := []
    md5sha1DB := [] }

/-- Rom for the C4 witness. -/
def c4Rom : Rom :=
  { name := "r", size := 0, crc := none, md5 := some [2], sha1 := some [1], path := "" }

/-- Decoder for the C4 witness (nothing decodes). -/
def c4Decode : Bytes → Option Dat := fun _ => none

/-- Witness for C4: at `c4Store` the `sha1DB` tier wins. -/
theorem datsForRom_tiered_witness :
    datsForRom c4Store c4Decode c4Rom = collectDats c4Store.datsDB c4Decode [[9]] :=
  (datsForRom_tiered c4Store c4Decode c4Rom).1 [[9]] rfl

/-- Whether an `Except` result is an error. -/
def isErr {ε α : Type} : Except ε α → Bool
  | .error _ => true
  | .ok _ => false

/-- If `GetDat` fails on some chunk of the value being dereferenced, the
whole `collectDats` loop fails. -/
theorem collectDats_err (dats : List (Bytes × Bytes)) (decode : Bytes → Option Dat) :
    ∀ chunks : Chunks, ∀ c ∈ chunks, isErr (getDat dats decode c) = true →
    isErr (collectDats dats decode chunks) = true := by
  intro chunks
  induction chunks with
  | nil => intro c hc; exact absurd hc (by simp)
  | cons c0 rest ih =>
    intro c hc herr
    rcases List.mem_cons.1 hc with h | h
    · subst h
      unfold collectDats
      rcases hg : getDat dats decode c with e | od
      · rfl
      · rw [hg] at herr; simp [isErr] at herr
    · unfold collectDats
      rcases hg : getDat dats decode c0 with e | od
      · rfl
      · rcases od with _ | d
        · exact ih c h herr
        · have hrest := ih c h herr
          rcases hr : collectDats dats decode rest with e | ds
          · rfl
          · rw [hr] at hrest; simp [isErr] at hrest

/-- **C9 (amended).** When the serialized bytes stored under a Dat key
fail to gob-decode, `GetDat` returns an error (not an absent Dat), and a
`DatsForRom` whose winning tier lists that key propagates the error
instead of omitting the Dat.  (The claim as stated — decode failure
treated as an absent Dat — is refuted by
`getDat_decode_failure_counterexample` below.) -/
theorem getDat_decode_failure_errors (dats : List (Bytes × Bytes))
    (decode : Bytes → Option Dat) (k bs : Bytes)
    (h1 : alGet dats k = some bs) (h2 : decode bs = none) :
    getDat dats decode k = .error "decode error" ∧
    (∀ (s : KVStoreState) (rom : Rom) (chunks : Chunks),
      s.datsDB = dats → sha1Tier s rom = some chunks → k ∈ chunks →
      isErr (datsForRom s decode rom) = true) := by
  have hget : getDat dats decode k = .error "decode error" := by
    unfold getDat
    rw [h1]
    simp [h2]
  refine ⟨hget, ?_⟩
  intro s rom chunks hdats hv hk
  rw [datsForRom_sha1_hit s decode rom chunks hv, hdats]
  exact collectDats_err dats decode chunks k hk (by rw [hget]; rfl)

/-- Store contents for the C9 counterexample: one Dat key whose stored
bytes do not decode. -/
def c9Store : KVStoreState :=
  { generation := 0
    datsDB := [([1], [42])]
    crcDB := []
    md5DB := []
    sha1DB := [([5], [[1]])]
    crcsha1DB := []
    md5sha1DB := [] }

/-- Rom for the C9 counterexample: its SHA1 resolves to the corrupt Dat
key. -/
def c9Rom : Rom :=
  { name := "r", size := 0, crc := none, md5 := none, sha1 := some [5], path := "" }

/-- Decoder for the C9 counterexample: the stored bytes fail to decode. -/
def c9Decode : Bytes → Option Dat := fun _ => none

/-- Counterexample to C9 as stated: at a store holding undecodable Dat
bytes, `GetDat` reports an error rather than no Dat, and `DatsForRom`
fails rather than omitting the Dat. -/
theorem getDat_decode_failure_counterexample :
    getDat c9Store.datsDB c9Decode [1] = .error "decode error" ∧
    getDat c9Store.datsDB c9Decode [1] ≠ .ok none ∧
    isErr (datsForRom c9Store c9Decode c9Rom) = true ∧
    datsForRom c9Store c9Decode c9Rom ≠ .ok [] :=
  ⟨rfl, by simp [getDat, c9Store, c9Decode, alGet], rfl,
    by simp [datsForRom, c9Store, c9Decode, c9Rom, alGet, collectDats, getDat]⟩

/-- Witness for C9 (amended) at the counterexample store. -/
theorem getDat_decode_failure_errors_witness :
    (alGet c9Store.datsDB [1] = some [42] ∧ c9Decode [42] = none) ∧
    (getDat c9Store.datsDB c9Decode [1] = .error "decode error" ∧
      (∀ (s : KVStoreState) (rom : Rom) (chunks : Chunks),
        s.datsDB = c9Store.datsDB → sha1Tier s rom = some chunks → [1] ∈ chunks →
        isErr (datsForRom s c9Decode rom) = true)) :=
  ⟨⟨rfl, rfl⟩,
    getDat_decode_failure_errors c9Store.datsDB c9Decode [1] [42] rfl rfl⟩

/-! ## C3: union-map membership implies a `dats` entry -/

/-- Lookup after a shadowing update. -/
theorem alGet_alSet {κ α : Type} [DecidableEq κ] (m : List (κ × α)) (k k' : κ) (v : α) :
    alGet (alSet m k v) k' = if k' = k then some v else alGet m k' := rfl

/-- Every digest listed in a value of union map `m` has an entry in the
`dats` map. -/
def mapInv (dats : List (Bytes × Bytes)) (m : List (Bytes × Chunks)) : Prop :=
  ∀ k v, alGet m k = some v → ∀ c ∈ v, (alGet dats c).isSome

/-- The C3 invariant over a store state: every Dat-SHA1 occurring inside
a value of the `crc`, `md5` or `sha1` union map has an entry in the
`dats` map under that key. -/
def UnionInv (s : KVStoreState) : Prop :=
  mapInv s.datsDB s.crcDB ∧ mapInv s.datsDB s.md5DB ∧ mapInv s.datsDB s.sha1DB

/-- `mapInv` is monotone in the `dats` map. -/
theorem mapInv_mono {d1 d2 : List (Bytes × Bytes)} {m : List (Bytes × Chunks)}
    (hmono : ∀ c, (alGet d1 c).isSome → (alGet d2 c).isSome)
    (h : mapInv d1 m) : mapInv d2 m :=
  fun k v hv c hc => hmono c (h k v hv c hc)

/-- Applying batched union-map operations whose values all point into the
`dats` map preserves `mapInv`. -/
theorem mapInv_applyUOps (dats : List (Bytes × Bytes)) (ops : List UOp) :
    ∀ m, mapInv dats m →
    (∀ op ∈ ops, ∀ c ∈ op.chunks, (alGet dats c).isSome) →
    mapInv dats (applyUOps m ops) := by
  induction ops with
  | nil => intro m hm _; exact hm
  | cons op rest ih =>
    intro m hm hops
    have hop : ∀ c ∈ op.chunks, (alGet dats c).isSome :=
      hops op (List.mem_cons_self _ _)
    have hrest : ∀ o ∈ rest, ∀ c ∈ o.chunks, (alGet dats c).isSome :=
      fun o ho => hops o (List.mem_cons_of_mem _ ho)
    have h1 : mapInv dats (applyUOp m op) := by
      cases op with
      | uset k v =>
        intro k' v' hv' c hc
        rw [applyUOp, alGet_alSet] at hv'
        by_cases hk : k' = k
        · rw [if_pos hk] at hv'
          obtain rfl : v = v' := Option.some.inj hv'
          exact hop c hc
        · rw [if_neg hk] at hv'
          exact hm k' v' hv' c hc
      | uappend k v =>
        intro k' v' hv' c hc
        rw [applyUOp, alGet_alSet] at hv'
        by_cases hk : k' = k
        · rw [if_pos hk] at hv'
          obtain rfl : appendUniqueSha1 ((alGet m k).getD []) v = v' :=
            Option.some.inj hv'
          rcases mem_appendUniqueSha1 hc with hc | hc
          · rcases hval : alGet m k with _ | w
            · rw [hval] at hc; simp at hc
            · rw [hval] at hc
              exact hm k w hval c hc
          · exact hop c hc
        · rw [if_neg hk] at hv'
          exact hm k' v' hv' c hc
    have : applyUOps m (op :: rest) = applyUOps (applyUOp m op) rest := rfl
    rw [this]
    exact ih (applyUOp m op) h1 hrest

/-- Batched `dats` writes (all `Set`s) only grow the set of present keys. -/
theorem alGet_applyDatsOps_mono (ops : List (Bytes × Bytes)) :
    ∀ (dats : List (Bytes × Bytes)) (c : Bytes),
    (alGet dats c).isSome → (alGet (applyDatsOps dats ops) c).isSome := by
  induction ops with
  | nil => intro dats c h; exact h
  | cons p rest ih =>
    intro dats c h
    have : applyDatsOps dats (p :: rest) = applyDatsOps (alSet dats p.1 p.2) rest := rfl
    rw [this]
    refine ih _ c ?_
    rw [alGet_alSet]
    by_cases hk : c = p.1
    · rw [if_pos hk]; rfl
    · rw [if_neg hk]; exact h

/-- A key written by some batched `dats` `Set` is present after the batch
commits. -/
theorem alGet_applyDatsOps_mem (ops : List (Bytes × Bytes)) :
    ∀ (dats : List (Bytes × Bytes)) (k : Bytes) (v : Bytes), (k, v) ∈ ops →
    (alGet (applyDatsOps dats ops) k).isSome := by
  induction ops with
  | nil => intro dats k v h; exact absurd h (by simp)
  | cons p rest ih =>
    intro dats k v h
    have hstep : applyDatsOps dats (p :: rest) = applyDatsOps (alSet dats p.1 p.2) rest := rfl
    rw [hstep]
    rcases List.mem_cons.1 h with h | h
    · refine alGet_applyDatsOps_mono rest _ k ?_
      rw [← h, alGet_alSet, if_pos rfl]
      rfl
    · exact ih _ k v h

/-- Committing a batch whose pending `crc`/`md5`/`sha1` values all point
into the post-commit `dats` map preserves the C3 invariant. -/
theorem flushBatch_inv (s : KVStoreState) (b : KvBatch) (hInv : UnionInv s)
    (h : ∀ op : UOp, (op ∈ b.crcBatch ∨ op ∈ b.md5Batch ∨ op ∈ b.sha1Batch) →
      ∀ c ∈ op.chunks, (alGet (applyDatsOps s.datsDB b.datsBatch) c).isSome) :
    UnionInv (flushBatch s b) := by
  unfold flushBatch
  by_cases hsz : b.size = 0
  · rw [if_pos hsz]; exact hInv
  · rw [if_neg hsz]
    obtain ⟨h1, h2, h3⟩ := hInv
    have hmono := alGet_applyDatsOps_mono b.datsBatch s.datsDB
    refine ⟨?_, ?_, ?_⟩
    · exact mapInv_applyUOps _ _ _ (mapInv_mono hmono h1)
        (fun op hop => h op (Or.inl hop))
    · exact mapInv_applyUOps _ _ _ (mapInv_mono hmono h2)
        (fun op hop => h op (Or.inr (Or.inl hop)))
    · exact mapInv_applyUOps _ _ _ (mapInv_mono hmono h3)
        (fun op hop => h op (Or.inr (Or.inr hop)))

/-- How a batch grows during the games/roms traversal of `IndexDat`:
the `crc`/`md5`/`sha1` sub-batches only gain operations whose value is
the single Dat-SHA1 `sb`, and the `dats` sub-batch is untouched. -/
def BatchExt (sb : Bytes) (b b' : KvBatch) : Prop :=
  (∀ op ∈ b'.crcBatch, op ∈ b.crcBatch ∨ op.chunks = [sb]) ∧
  (∀ op ∈ b'.md5Batch, op ∈ b.md5Batch ∨ op.chunks = [sb]) ∧
  (∀ op ∈ b'.sha1Batch, op ∈ b.sha1Batch ∨ op.chunks = [sb]) ∧
  b'.datsBatch = b.datsBatch

theorem BatchExt.refl (sb : Bytes) (b : KvBatch) : BatchExt sb b b :=
  ⟨fun _ h => Or.inl h, fun _ h => Or.inl h, fun _ h => Or.inl h, rfl⟩

theorem BatchExt.trans {sb : Bytes} {b1 b2 b3 : KvBatch}
    (h12 : BatchExt sb b1 b2) (h23 : BatchExt sb b2 b3) : BatchExt sb b1 b3 := by
  obtain ⟨c12, m12, s12, d12⟩ := h12
  obtain ⟨c23, m23, s23, d23⟩ := h23
  refine ⟨?_, ?_, ?_, d23.trans d12⟩
  · intro op hop
    rcases c23 op hop with h | h
    · exact c12 op h
    · exact Or.inr h
  · intro op hop
    rcases m23 op hop with h | h
    · exact m12 op h
    · exact Or.inr h
  · intro op hop
    rcases s23 op hop with h | h
    · exact s12 op h
    · exact Or.inr h

theorem indexDatRom_ext (sb : Bytes) (b : KvBatch) (r : Rom) :
    BatchExt sb b (indexDatRom sb b r) := by
  unfold indexDatRom
  rcases r.sha1 with _ | ks <;> rcases r.md5 with _ | km <;> rcases r.crc with _ | kc <;>
    refine ⟨?_, ?_, ?_, rfl⟩ <;> intro op hop <;> simp at hop <;>
    first
      | exact Or.inl hop
      | (rcases hop with hop | hop
         · exact Or.inl hop
         · subst hop; exact Or.inr rfl)

theorem indexDatGames_ext (sb : Bytes) (games : List Game) :
    ∀ b, BatchExt sb b (indexDatGames sb b games) := by
  have roms : ∀ (rs : List Rom) (b : KvBatch), BatchExt sb b (rs.foldl (indexDatRom sb) b) := by
    intro rs
    induction rs with
    | nil => intro b; exact BatchExt.refl sb b
    | cons r rest ih =>
      intro b
      have : (r :: rest).foldl (indexDatRom sb) b = rest.foldl (indexDatRom sb) (indexDatRom sb b r) := rfl
      rw [this]
      exact (indexDatRom_ext sb b r).trans (ih (indexDatRom sb b r))
  intro b
  unfold indexDatGames
  induction games generalizing b with
  | nil => exact BatchExt.refl sb b
  | cons g rest ih =>
    have : (g :: rest).foldl (fun b' g' => g'.roms.foldl (indexDatRom sb) b') b =
        rest.foldl (fun b' g' => g'.roms.foldl (indexDatRom sb) b') (g.roms.foldl (indexDatRom sb) b) := rfl
    rw [this]
    exact (roms g.roms b).trans (ih _)

/-- Shape of a successful `IndexDat` batch: the `dats` sub-batch gains
exactly the `Set` at `sha1Bytes`, and the three union sub-batches gain
only operations whose value is that same `sha1Bytes`. -/
theorem indexDat_batches (s : KVStoreState) (encode : Dat → Bytes) (b : KvBatch)
    (dat : Dat) (sha1Bytes : Option Bytes) (b' : KvBatch)
    (h : indexDat s encode b dat sha1Bytes = .ok b') :
    ∃ sb enc, sha1Bytes = some sb ∧
      b'.datsBatch = b.datsBatch ++ [(sb, enc)] ∧
      (∀ op ∈ b'.crcBatch, op ∈ b.crcBatch ∨ op.chunks = [sb]) ∧
      (∀ op ∈ b'.md5Batch, op ∈ b.md5Batch ∨ op.chunks = [sb]) ∧
      (∀ op ∈ b'.sha1Batch, op ∈ b.sha1Batch ∨ op.chunks = [sb]) := by
  rcases sha1Bytes with _ | sb
  · exact absurd h (by simp [indexDat])
  · have hb' : indexDatTagged s encode b { dat with generation := s.generation } sb = b' :=
      Except.ok.inj h
    refine ⟨sb, encode { dat with generation := s.generation }, rfl, ?_⟩
    unfold indexDatTagged at hb'
    by_cases hex : datExists s { dat with generation := s.generation } sb = true
    · rw [if_pos hex] at hb'
      subst hb'
      exact ⟨rfl, fun _ h' => Or.inl h', fun _ h' => Or.inl h', fun _ h' => Or.inl h'⟩
    · rw [if_neg hex] at hb'
      subst hb'
      obtain ⟨hc, hm, hs, hd⟩ := indexDatGames_ext sb
        ({ dat with generation := s.generation } : Dat).games
        (indexDatSet b sb (encode { dat with generation := s.generation }))
      refine ⟨hd.trans rfl, hc, hm, hs⟩

/-- A member of a union-map value read through `getD` points into `dats`
whenever `mapInv` holds. -/
theorem mem_getD_good {dats : List (Bytes × Bytes)} {m : List (Bytes × Chunks)}
    {k : Bytes} (hm : mapInv dats m) {c : Bytes}
    (hc : c ∈ (alGet m k).getD []) : (alGet dats c).isSome := by
  rcases hval : alGet m k with _ | w
  · rw [hval] at hc; simp at hc
  · rw [hval] at hc; exact hm k w hval c hc

/-- The guarded merge step of `weakUnion` preserves pointing into `dats`. -/
theorem mem_condAppend {dats : List (Bytes × Bytes)} {m : List (Bytes × Chunks)}
    {k : Bytes} (hm : mapInv dats m) {V : Chunks}
    (hV : ∀ c ∈ V, (alGet dats c).isSome) {c : Bytes}
    (hc : c ∈ (if ((alGet m k).getD []).length > 0 then
      appendUniqueSha1 V ((alGet m k).getD []) else V)) :
    (alGet dats c).isSome := by
  by_cases hlen : ((alGet m k).getD []).length > 0
  · rw [if_pos hlen] at hc
    rcases mem_appendUniqueSha1 hc with h | h
    · exact hV c h
    · exact mem_getD_good hm h
  · rw [if_neg hlen] at hc
    exact hV c hc

/-- Every chunk of `weakUnion` points into the `dats` map when the `md5`
and `crc` union maps satisfy the invariant. -/
theorem weakUnion_good (s : KVStoreState) (rom : Rom)
    (hcrc : mapInv s.datsDB s.crcDB) (hmd5 : mapInv s.datsDB s.md5DB) :
    ∀ c ∈ weakUnion s rom, (alGet s.datsDB c).isSome := by
  intro c hc
  unfold weakUnion at hc
  rcases hm5 : rom.md5 with _ | km <;> rw [hm5] at hc <;>
    rcases hcr : rom.crc with _ | kc <;> rw [hcr] at hc
  · simp at hc
  · exact mem_condAppend hcrc (fun c' hc' => absurd hc' (List.not_mem_nil c')) hc
  · exact mem_condAppend hmd5 (fun c' hc' => absurd hc' (List.not_mem_nil c')) hc
  · exact mem_condAppend hcrc
      (fun c' hc' => mem_condAppend hmd5 (fun c'' hc'' => absurd hc'' (List.not_mem_nil c'')) hc') hc

/-- The cross-link step touches only the `crcsha1`/`md5sha1` sub-batches. -/
theorem indexRomCross_fields (b : KvBatch) (rom : Rom) :
    (indexRomCross b rom).crcBatch = b.crcBatch ∧
    (indexRomCross b rom).md5Batch = b.md5Batch ∧
    (indexRomCross b rom).sha1Batch = b.sha1Batch ∧
    (indexRomCross b rom).datsBatch = b.datsBatch := by
  unfold indexRomCross
  rcases rom.sha1 with _ | ks <;> rcases rom.md5 with _ | km <;> rcases rom.crc with _ | kc <;>
    exact ⟨rfl, rfl, rfl, rfl⟩

/-- Shape of a successful `IndexRom` batch: either only the `sha1`
sub-batch gained the weak-hash union `Set` (or nothing at all, besides
cross-links), or the artificial-Dat path ran and the batch has the
`IndexDat` shape. -/
theorem indexRomBatch_shape (s : KVStoreState) (encode : Dat → Bytes)
    (sha1Of : Bytes → Bytes) (decode : Bytes → Option Dat)
    (b : KvBatch) (rom : Rom) (b' : KvBatch)
    (h : indexRomBatch s encode sha1Of decode b rom = .ok b') :
    (b'.crcBatch = b.crcBatch ∧ b'.md5Batch = b.md5Batch ∧ b'.datsBatch = b.datsBatch ∧
      (b'.sha1Batch = b.sha1Batch ∨
        b'.sha1Batch = b.sha1Batch ++ [.uset (romSha1Key rom) (weakUnion s rom)])) ∨
    (∃ sb enc, b'.datsBatch = b.datsBatch ++ [(sb, enc)] ∧
      (∀ op ∈ b'.crcBatch, op ∈ b.crcBatch ∨ op.chunks = [sb]) ∧
      (∀ op ∈ b'.md5Batch, op ∈ b.md5Batch ∨ op.chunks = [sb]) ∧
      (∀ op ∈ b'.sha1Batch, op ∈ b.sha1Batch ∨ op.chunks = [sb])) := by
  obtain ⟨hxc, hxm, hxs, hxd⟩ := indexRomCross_fields b rom
  unfold indexRomBatch at h
  split at h
  · exact absurd h (by simp)
  · split at h
    · split at h
      · split at h
        · obtain rfl := Except.ok.inj h
          exact Or.inl ⟨hxc, hxm, hxd, Or.inr (by rw [hxs])⟩
        · obtain rfl := Except.ok.inj h
          exact Or.inl ⟨hxc, hxm, hxd, Or.inl hxs⟩
      · obtain rfl := Except.ok.inj h
        exact Or.inl ⟨hxc, hxm, hxd, Or.inl hxs⟩
    · obtain ⟨sb, enc, _, hd, hc, hm, hs⟩ :=
        indexDat_batches s encode (indexRomCross b rom) (artificialDat s rom)
          (some (sha1Of (encode (artificialDat s rom)))) b' h
      refine Or.inr ⟨sb, enc, by rw [hd, hxd], ?_, ?_, ?_⟩
      · intro op hop
        rcases hc op hop with h' | h'
        · exact Or.inl (hxc ▸ h')
        · exact Or.inr h'
      · intro op hop
        rcases hm op hop with h' | h'
        · exact Or.inl (hxm ▸ h')
        · exact Or.inr h'
      · intro op hop
        rcases hs op hop with h' | h'
        · exact Or.inl (hxs ▸ h')
        · exact Or.inr h'

/-- **C3.** Completed index operations preserve the union-map/`dats`
invariant: starting from a state where every Dat-SHA1 inside a value of
the `crc`, `md5` or `sha1` union map has an entry in `dats`, both
`kvStore.IndexRom` and `kvStore.IndexDat` (each a fresh batch followed by
its flush) leave a state with the same property. -/
theorem index_ops_preserve_union_inv (s : KVStoreState) (encode : Dat → Bytes)
    (sha1Of : Bytes → Bytes) (decode : Bytes → Option Dat) (hInv : UnionInv s) :
    (∀ (rom : Rom) (s' : KVStoreState),
      kvIndexRom s encode sha1Of decode rom = .ok s' → UnionInv s') ∧
    (∀ (dat : Dat) (sha1Bytes : Option Bytes) (s' : KVStoreState),
      kvIndexDat s encode dat sha1Bytes = .ok s' → UnionInv s') := by
  constructor
  · intro rom s' h
    unfold kvIndexRom at h
    split at h
    · exact absurd h (by simp)
    · rename_i bb hres
      obtain rfl := Except.ok.inj h
      rcases indexRomBatch_shape s encode sha1Of decode emptyBatch rom bb hres with
        ⟨hc, hm, hd, hs⟩ | ⟨sb, enc, hd, hc, hm, hs⟩
      · refine flushBatch_inv s bb hInv ?_
        intro op hop c hcc
        have hdats : applyDatsOps s.datsDB bb.datsBatch = s.datsDB := by rw [hd]; rfl
        rw [hdats]
        rcases hop with hop | hop | hop
        · rw [hc] at hop; exact absurd hop (List.not_mem_nil op)
        · rw [hm] at hop; exact absurd hop (List.not_mem_nil op)
        · rcases hs with hs | hs
          · rw [hs] at hop; exact absurd hop (List.not_mem_nil op)
          · rw [hs] at hop
            have hop' : op = .uset (romSha1Key rom) (weakUnion s rom) := by
              simpa [emptyBatch] using hop
            subst hop'
            exact weakUnion_good s rom hInv.1 hInv.2.1 c hcc
      · refine flushBatch_inv s bb hInv ?_
        intro op hop c hcc
        have hsb : (alGet (applyDatsOps s.datsDB bb.datsBatch) sb).isSome := by
          refine alGet_applyDatsOps_mem bb.datsBatch s.datsDB sb enc ?_
          rw [hd]; simp
        have hchunks : op.chunks = [sb] := by
          rcases hop with hop | hop | hop
          · rcases hc op hop with h' | h'
            · exact absurd h' (List.not_mem_nil op)
            · exact h'
          · rcases hm op hop with h' | h'
            · exact absurd h' (List.not_mem_nil op)
            · exact h'
          · rcases hs op hop with h' | h'
            · exact absurd h' (List.not_mem_nil op)
            · exact h'
        rw [hchunks] at hcc
        have hceq : c = sb := by simpa using hcc
        subst hceq
        exact hsb
  · intro dat sha1Bytes s' h
    unfold kvIndexDat at h
    split at h
    · exact absurd h (by simp)
    · rename_i bb hres
      obtain rfl := Except.ok.inj h
      obtain ⟨sb, enc, _, hd, hc, hm, hs⟩ :=
        indexDat_batches s encode emptyBatch dat sha1Bytes bb hres
      refine flushBatch_inv s bb hInv ?_
      intro op hop c hcc
      have hsb : (alGet (applyDatsOps s.datsDB bb.datsBatch) sb).isSome := by
        refine alGet_applyDatsOps_mem bb.datsBatch s.datsDB sb enc ?_
        rw [hd]; simp
      have hchunks : op.chunks = [sb] := by
        rcases hop with hop | hop | hop
        · rcases hc op hop with h' | h'
          · exact absurd h' (List.not_mem_nil op)
          · exact h'
        · rcases hm op hop with h' | h'
          · exact absurd h' (List.not_mem_nil op)
          · exact h'
        · rcases hs op hop with h' | h'
          · exact absurd h' (List.not_mem_nil op)
          · exact h'
      rw [hchunks] at hcc
      have hceq : c = sb := by simpa using hcc
      subst hceq
      exact hsb

/-- Empty store for the C3 witness. -/
def c3Store : KVStoreState :=
  { generation := 0, datsDB := [], crcDB := [], md5DB := [], sha1DB := [],
    crcsha1DB := [], md5sha1DB := [] }

/-- Gob encoder stand-in for the C3 witness. -/
def c3Encode : Dat → Bytes := fun _ => [0]

/-- SHA1 stand-in for the C3 witness. -/
def c3Sha1Of : Bytes → Bytes := fun _ => [7]

/-- Decoder stand-in for the C3 witness. -/
def c3Decode : Bytes → Option Dat := fun _ => none

/-- Witness for C3 at the empty store (which satisfies the invariant
vacuously). -/
theorem index_ops_preserve_union_inv_witness :
    UnionInv c3Store ∧
    ((∀ (rom : Rom) (s' : KVStoreState),
        kvIndexRom c3Store c3Encode c3Sha1Of c3Decode rom = .ok s' → UnionInv s') ∧
      (∀ (dat : Dat) (sha1Bytes : Option Bytes) (s' : KVStoreState),
        kvIndexDat c3Store c3Encode dat sha1Bytes = .ok s' → UnionInv s')) :=
  have hinv : UnionInv c3Store := by
    refine ⟨?_, ?_, ?_⟩ <;> intro k v hv <;> simp [alGet, c3Store] at hv
  ⟨hinv, index_ops_preserve_union_inv c3Store c3Encode c3Sha1Of c3Decode hinv⟩

/-! ## The depot filesystem, path encoder and archive worker -/

/-- The `.gz` suffix of depot blobs. -/
def gzipSuffix : String := ".gz"

/-- Lower-case hex digit. -/
def hexDigitChar (n : Nat) : Char := "0123456789abcdef".toList.getD n '0'

/-- Two hex digits of one byte. -/
def byteToHex (b : Nat) : List Char := [hexDigitChar (b / 16 % 16), hexDigitChar (b % 16)]

/-- `hex.EncodeToString` over a byte string. -/
def hexEncode : Bytes → List Char
  | [] => []
  | b :: rest => byteToHex b ++ hexEncode rest

/-- Modelled from the spec: `pathFromSha1HexEncoding` (the path encoder
`path_for` is not under src/) — `root/AB/CD/EF/GH/<full_hex><suffix>`,
four levels of two-hex-character sharding. -/
def pathFromSha1HexEncoding (root : String) (hx : List Char) (suffix : String) : String :=
  root ++ "/" ++ String.mk (hx.take 2) ++ "/" ++ String.mk ((hx.drop 2).take 2) ++ "/" ++
    String.mk ((hx.drop 4).take 2) ++ "/" ++ String.mk ((hx.drop 6).take 2) ++ "/" ++
    String.mk hx ++ suffix

/-- The md5/crc trailer of a stored depot blob. -/
structure Blob where
  md5 : Bytes
  crc : Bytes
deriving DecidableEq

/-- The depot's on-disk contents: full blob path to trailer. -/
abbrev DepotFS := List (String × Blob)

/-- `Depot.SHA1InDepot` as defined in part_000: probe each root's
sharded path in root order and report whether the first found blob
exists (this src definition returns only the presence flag). -/
def sha1InDepot (fs : DepotFS) : List String → List Char → Bool
  | [], _ => false
  | root :: rest, sha1Hex =>
    if (alGet fs (pathFromSha1HexEncoding root sha1Hex gzipSuffix)).isSome then true
    else sha1InDepot fs rest sha1Hex

/-- Modelled from the spec: `SHA1InDepot(sha1_hex) → (present,
hashes|none)` — "probe each root's `path_for` in order.  Return the
trailer (`md5/crc`) of the first found blob, or absent."  This is the
variant the purge worker in part_001 calls
(`_, hh, err := depot.SHA1InDepot(...)`); the definition under src/
(part_000) returns only the presence flag. -/
def specSHA1InDepot (fs : DepotFS) : List String → List Char → Option Blob
  | [], _ => none
  | root :: rest, sha1Hex =>
    match alGet fs (pathFromSha1HexEncoding root sha1Hex gzipSuffix) with
    | some hh => some hh
    | none => specSHA1InDepot fs rest sha1Hex

/-- `Depot.adjustSize`. -/
def adjustSize (d : DepotSt) (index : Nat) (delta : Int) : DepotSt :=
  { d with sizes := d.sizes.set index (d.sizes.getD index 0 + delta) }

/-- The mutable world an archive worker acts on: the index store, the
depot accounting, and the depot files. -/
structure World where
  kv : KVStoreState
  depot : DepotSt
  fs : DepotFS
deriving DecidableEq

/-- The tail of `archiveWorker.archive` after the only-needed gate:
`IndexRom`, the `SHA1InDepot` dedup check, `reserveRoot` on
`size / 5`, the compressed write (`compressedSize` stands for the
external compressor's result; the written blob's trailer carries the
rom's md5/crc), and the `adjustSize` correction. -/
def archiveStepMain (w : World) (encode : Dat → Bytes) (sha1Of : Bytes → Bytes)
    (decode : Bytes → Option Dat) (rom : Rom) (size compressedSize : Int) :
    (Except String Int) × World :=
  match kvIndexRom w.kv encode sha1Of decode rom with
  | .error e => (.error e, w)
  | .ok kv' =>
    let w1 : World := { w with kv := kv' }
    let sha1Hex := hexEncode (romSha1Key rom)
    if sha1InDepot w1.fs w1.depot.roots sha1Hex then (.ok 0, w1)
    else
      match reserveRoot w1.depot (size / 5) with
      | (none, dep') => (.error "depot ran out of disk space", { w1 with depot := dep' })
      | (some root, dep') =>
        let outpath := pathFromSha1HexEncoding (dep'.roots.getD root "") sha1Hex gzipSuffix
        (.ok compressedSize,
          { w1 with
            depot := adjustSize dep' root (compressedSize - size / 5)
            fs := alSet w1.fs outpath ⟨rom.md5.getD [], rom.crc.getD []⟩ })

/-- `archiveWorker.archive` (part_000), after the hashing pass has filled
the rom's digests: when `onlyneeded` is set, query `DatsForRom` and skip
(returning 0 and touching nothing) unless some non-artificial Dat
references the rom. -/
def archiveStep (w : World) (onlyneeded : Bool) (encode : Dat → Bytes)
    (sha1Of : Bytes → Bytes) (decode : Bytes → Option Dat)
    (rom : Rom) (size compressedSize : Int) : (Except String Int) × World :=
  if onlyneeded then
    match datsForRom w.kv decode rom with
    | .error e => (.error e, w)
    | .ok dats =>
      if dats.any (fun d => !d.artificial) then
        archiveStepMain w encode sha1Of decode rom size compressedSize
      else (.ok 0, w)
  else archiveStepMain w encode sha1Of decode rom size compressedSize

/-- **C6.** With `only_needed` set, when `DatsForRom` lists no
non-artificial Dat for the hashed rom, `archiveWorker.archive` returns 0
and the world is unchanged: no `IndexRom`, no index writes, no root
reservation, no depot write. -/
theorem archive_only_needed_skip (w : World) (encode : Dat → Bytes)
    (sha1Of : Bytes → Bytes) (decode : Bytes → Option Dat)
    (rom : Rom) (size compressedSize : Int) (dats : List Dat)
    (h1 : datsForRom w.kv decode rom = .ok dats)
    (h2 : ∀ d ∈ dats, d.artificial = true) :
    archiveStep w true encode sha1Of decode rom size compressedSize = (.ok 0, w) := by
  have hany : dats.any (fun d => !d.artificial) = false := by
    rw [List.any_eq_false]
    intro d hd
    rw [h2 d hd]
    simp
  simp [archiveStep, h1, hany]

/-- World for the C6 witness: empty index, one empty root, empty depot. -/
def c6World : World :=
  { kv := { generation := 0, datsDB := [], crcDB := [], md5DB := [], sha1DB := [],
            crcsha1DB := [], md5sha1DB := [] }
    depot := { roots := ["r"], sizes := [0], maxSizes := [100], start := 0 }
    fs := [] }

/-- Rom for the C6 witness. -/
def c6Rom : Rom :=
  { name := "x", size := 12, crc := some [1, 2, 3, 4], md5 := some [5],
    sha1 := some [9], path := "p" }

/-- Encoder stand-in for the C6 witness. -/
def c6Encode : Dat → Bytes := fun _ => [0]

/-- SHA1 stand-in for the C6 witness. -/
def c6Sha1Of : Bytes → Bytes := fun _ => [7]

/-- Decoder stand-in for the C6 witness. -/
def c6Decode : Bytes → Option Dat := fun _ => none

/-- Witness for C6: ingesting a novel rom into an empty index with
`only_needed` set does nothing. -/
theorem archive_only_needed_skip_witness :
    (datsForRom c6World.kv c6Decode c6Rom = .ok [] ∧
      (∀ d ∈ ([] : List Dat), d.artificial = true)) ∧
    archiveStep c6World true c6Encode c6Sha1Of c6Decode c6Rom 12 3 = (.ok 0, c6World) :=
  ⟨⟨rfl, by simp⟩,
    archive_only_needed_skip c6World c6Encode c6Sha1Of c6Decode c6Rom 12 3 [] rfl (by simp)⟩

/-! ## `Depot.OpenRomGZ` (part_000) and collision disambiguation -/

/-- The 20-byte candidate digests of a collision-set SHA1 value, i.e. the
Go loop `for i := 0; i < len(rom.Sha1); i += sha1.Size` over
`rom.Sha1[i : i+sha1.Size]` (written with a fuel bounded by the length so
the split is structural; the fuel never runs out on the lists the loop is
given). -/
def chunks20Go : Nat → Bytes → Chunks
  | _, [] => []
  | 0, l => [l]
  | fuel + 1, l => l.take 20 :: chunks20Go fuel (l.drop 20)

/-- Split a byte string into its 20-byte digests. -/
def chunks20 (l : Bytes) : Chunks := chunks20Go l.length l

/-- `rom.Md5 != nil && bytes.Equal(rom.Md5, hh.Md5)`. -/
def md5Matches (rom : Rom) (hh : Blob) : Bool :=
  match rom.md5 with
  | some m => m = hh.md5
  | none => false

/-- `rom.Crc != nil && bytes.Equal(rom.Crc, hh.Crc)`. -/
def crcMatches (rom : Rom) (hh : Blob) : Bool :=
  match rom.crc with
  | some c => c = hh.crc
  | none => false

/-- `md5` or `crc` trailer match — the disambiguation test of
`OpenRomGZ`. -/
def blobMatches (rom : Rom) (hh : Blob) : Bool :=
  md5Matches rom hh || crcMatches rom hh

/-- The single-digest branch of `OpenRomGZ`: open the first root whose
sharded path exists. -/
def openSingle (fs : DepotFS) : List String → List Char → Option String
  | [], _ => none
  | root :: rest, hx =>
    if (alGet fs (pathFromSha1HexEncoding root hx gzipSuffix)).isSome then
      some (pathFromSha1HexEncoding root hx gzipSuffix)
    else openSingle fs rest hx

/-- The inner root loop of the collision branch of `OpenRomGZ`: for each
root in order, if the candidate's blob exists, return it when the rom's
md5 or crc matches its trailer (or unconditionally when the rom carries
neither weaker hash); otherwise keep scanning. -/
def openCollisionRoots (fs : DepotFS) (rom : Rom) (hx : List Char) :
    List String → Option String
  | [] => none
  | root :: rest =>
    match alGet fs (pathFromSha1HexEncoding root hx gzipSuffix) with
    | none => openCollisionRoots fs rom hx rest
    | some hh =>
      if rom.crc ≠ none ∨ rom.md5 ≠ none then
        if md5Matches rom hh then some (pathFromSha1HexEncoding root hx gzipSuffix)
        else if crcMatches rom hh then some (pathFromSha1HexEncoding root hx gzipSuffix)
        else openCollisionRoots fs rom hx rest
      else some (pathFromSha1HexEncoding root hx gzipSuffix)

/-- The outer candidate loop of the collision branch of `OpenRomGZ`. -/
def openCollision (fs : DepotFS) (rom : Rom) (roots : List String) :
    Chunks → Option String
  | [] => none
  | c :: rest =>
    match openCollisionRoots fs rom (hexEncode c) roots with
    | some p => some p
    | none => openCollision fs rom roots rest

/-- `Depot.OpenRomGZ`: error on a missing SHA1; open the first existing
blob when the SHA1 is a single digest; otherwise run the collision
disambiguation over the 20-byte candidates. -/
def openRomGZ (fs : DepotFS) (roots : List String) (rom : Rom) :
    Except String (Option String) :=
  match rom.sha1 with
  | none => .error "cannot open rom because SHA1 is missing"
  | some s =>
    if s.length = 20 then .ok (openSingle fs roots (hexEncode s))
    else .ok (openCollision fs rom roots (chunks20 s))

/-- The blobs found for one candidate digest, in root order. -/
def foundForCand (fs : DepotFS) (roots : List String) (c : Bytes) : List (String × Blob) :=
  roots.filterMap (fun root =>
    (alGet fs (pathFromSha1HexEncoding root (hexEncode c) gzipSuffix)).map
      (fun hh => (pathFromSha1HexEncoding root (hexEncode c) gzipSuffix, hh)))

/-- All blobs found over the candidate digests, in iteration order
(candidates outer, roots inner). -/
def foundEntries (fs : DepotFS) (roots : List String) : Chunks → List (String × Blob)
  | [] => []
  | c :: rest => foundForCand fs roots c ++ foundEntries fs roots rest

/-- The inner loop of the collision branch returns the first found blob
matching the rom's md5 or crc, provided the rom carries a weaker hash. -/
theorem openCollisionRoots_eq (fs : DepotFS) (rom : Rom) (c : Bytes)
    (hw : rom.crc ≠ none ∨ rom.md5 ≠ none) :
    ∀ roots : List String, openCollisionRoots fs rom (hexEncode c) roots =
      ((foundForCand fs roots c).find? (fun e => blobMatches rom e.2)).map (fun e => e.1) := by
  intro roots
  induction roots with
  | nil => rfl
  | cons root rest ih =>
    unfold openCollisionRoots
    split
    · rename_i hg
      simpa [foundForCand, List.filterMap_cons, hg] using ih
    · rename_i hh hg
      rw [if_pos hw]
      have hfc : foundForCand fs (root :: rest) c =
          (pathFromSha1HexEncoding root (hexEncode c) gzipSuffix, hh) :: foundForCand fs rest c := by
        simp [foundForCand, List.filterMap_cons, hg]
      rw [hfc]
      by_cases h5 : md5Matches rom hh = true
      · rw [if_pos h5]
        have hb : blobMatches rom hh = true := by simp [blobMatches, h5]
        simp [hb]
      · rw [if_neg h5]
        by_cases hcr : crcMatches rom hh = true
        · rw [if_pos hcr]
          have hb : blobMatches rom hh = true := by simp [blobMatches, hcr]
          simp [hb]
        · rw [if_neg hcr]
          have hb : blobMatches rom hh = false := by
            simp [blobMatches]
            exact ⟨by simpa using h5, by simpa using hcr⟩
          simpa [hb] using ih

/-- The collision branch of `OpenRomGZ` returns the first found blob (in
candidate-then-root order) whose trailer matches the rom's md5 or crc. -/
theorem openCollision_eq (fs : DepotFS) (rom : Rom) (roots : List String)
    (hw : rom.crc ≠ none ∨ rom.md5 ≠ none) :
    ∀ cands : Chunks, openCollision fs rom roots cands =
      ((foundEntries fs roots cands).find? (fun e => blobMatches rom e.2)).map (fun e => e.1) := by
  intro cands
  induction cands with
  | nil => rfl
  | cons c rest ih =>
    unfold openCollision foundEntries
    rw [openCollisionRoots_eq fs rom c hw roots, List.find?_append]
    rcases hf : (foundForCand fs roots c).find? (fun e => blobMatches rom e.2) with _ | e
    · simpa [hf] using ih
    · simp [hf]

/-- **C5 (amended).** For a rom whose SHA1 is a collision set and whose
MD5 is present, if exactly one found depot blob carries a trailer MD5
equal to `rom.Md5` and no *other* found blob's trailer CRC matches
`rom.Crc`, then `OpenRomGZ` returns that blob; in general it returns the
first found candidate blob matching md5 or crc.  (The claim as stated —
without the no-other-CRC-match proviso — is refuted by
`openRomGZ_md5_unique_counterexample` below: a CRC match on an
earlier-found blob wins over the unique MD5 match.) -/
theorem openRomGZ_md5_unique (fs : DepotFS) (roots : List String) (rom : Rom)
    (s m : Bytes) (e : String × Blob)
    (hsha : rom.sha1 = some s)
    (hmod : s.length % 20 = 0) (hlen : 20 < s.length)
    (hmd5 : rom.md5 = some m)
    (hin : e ∈ foundEntries fs roots (chunks20 s))
    (hmatch : e.2.md5 = m)
    (huniq : ∀ e' ∈ foundEntries fs roots (chunks20 s), e'.2.md5 = m → e' = e)
    (hcrc : ∀ e' ∈ foundEntries fs roots (chunks20 s), crcMatches rom e'.2 = true → e' = e) :
    openRomGZ fs roots rom = .ok (some e.1) := by
  have hne : s.length ≠ 20 := by omega
  have hw : rom.crc ≠ none ∨ rom.md5 ≠ none := Or.inr (by rw [hmd5]; simp)
  simp only [openRomGZ, hsha]
  rw [if_neg hne, openCollision_eq fs rom roots hw (chunks20 s)]
  have hpe : blobMatches rom e.2 = true := by
    simp [blobMatches, md5Matches, hmd5, hmatch]
  have hsome : ((foundEntries fs roots (chunks20 s)).find?
      (fun x => blobMatches rom x.2)).isSome = true :=
    List.find?_isSome.2 ⟨e, hin, hpe⟩
  obtain ⟨x, hx⟩ := Option.isSome_iff_exists.1 hsome
  have hpx := List.find?_some hx
  have hxmem := List.mem_of_find?_eq_some hx
  have hxe : x = e := by
    rcases Bool.or_eq_true_iff.1 (by simpa [blobMatches] using hpx) with h5 | hcr
    · refine huniq x hxmem ?_
      have hmx : m = x.2.md5 := by simpa [md5Matches, hmd5] using h5
      exact hmx.symm
    · exact hcrc x hxmem hcr
  rw [hx, hxe]
  rfl

/-- First candidate digest of the C5 scenario. -/
def c5H1 : Bytes := List.replicate 20 1

/-- Second candidate digest of the C5 scenario. -/
def c5H2 : Bytes := List.replicate 20 2

/-- The rom's MD5 in the C5 scenario. -/
def c5M : Bytes := List.replicate 16 5

/-- Blob stored under the first candidate: wrong MD5, but its CRC equals
the rom's. -/
def c5Blob1 : Blob := { md5 := List.replicate 16 9, crc := [7, 7, 7, 7] }

/-- Blob stored under the second candidate: the unique MD5 match. -/
def c5Blob2 : Blob := { md5 := c5M, crc := [8, 8, 8, 8] }

/-- Depot path of the first candidate. -/
def c5Path1 : String := pathFromSha1HexEncoding "r" (hexEncode c5H1) gzipSuffix

/-- Depot path of the second candidate. -/
def c5Path2 : String := pathFromSha1HexEncoding "r" (hexEncode c5H2) gzipSuffix

/-- Depot contents of the C5 scenario. -/
def c5FS : DepotFS := [(c5Path1, c5Blob1), (c5Path2, c5Blob2)]

/-- The colliding rom of the C5 counterexample: both weaker hashes set,
CRC matching the first candidate's blob. -/
def c5Rom : Rom :=
  { name := "x", size := 0, crc := some [7, 7, 7, 7], md5 := some c5M,
    sha1 := some (c5H1 ++ c5H2), path := "p" }

/-- Counterexample to C5 as stated: exactly one found blob (the second
candidate's) has trailer MD5 equal to `rom.Md5`, yet `OpenRomGZ` returns
the first candidate's blob, because its trailer CRC matches `rom.Crc`
first in iteration order. -/
theorem openRomGZ_md5_unique_counterexample :
    openRomGZ c5FS ["r"] c5Rom = .ok (some c5Path1) ∧
    ((foundEntries c5FS ["r"] (chunks20 (c5H1 ++ c5H2))).filter
      (fun e => e.2.md5 == c5M)).length = 1 ∧
    (foundEntries c5FS ["r"] (chunks20 (c5H1 ++ c5H2))).find?
      (fun e => e.2.md5 == c5M) = some (c5Path2, c5Blob2) ∧
    c5Path1 ≠ c5Path2 :=
  ⟨rfl, by decide, by decide, by decide⟩

/-- The rom of the C5 witness: same collision set and MD5, but a CRC
matching no stored blob. -/
def c5RomW : Rom :=
  { name := "x", size := 0, crc := some [0, 0, 0, 0], md5 := some c5M,
    sha1 := some (c5H1 ++ c5H2), path := "p" }

/-- Witness for C5 (amended): with no interfering CRC match, the unique
MD5 match is returned. -/
theorem openRomGZ_md5_unique_witness :
    (c5RomW.sha1 = some (c5H1 ++ c5H2) ∧ (c5H1 ++ c5H2).length % 20 = 0 ∧
      20 < (c5H1 ++ c5H2).length ∧ c5RomW.md5 = some c5M ∧
      (c5Path2, c5Blob2) ∈ foundEntries c5FS ["r"] (chunks20 (c5H1 ++ c5H2)) ∧
      (c5Path2, c5Blob2).2.md5 = c5M ∧
      (∀ e' ∈ foundEntries c5FS ["r"] (chunks20 (c5H1 ++ c5H2)),
        e'.2.md5 = c5M → e' = (c5Path2, c5Blob2)) ∧
      (∀ e' ∈ foundEntries c5FS ["r"] (chunks20 (c5H1 ++ c5H2)),
        crcMatches c5RomW e'.2 = true → e' = (c5Path2, c5Blob2))) ∧
    openRomGZ c5FS ["r"] c5RomW = .ok (some (c5Path2, c5Blob2).1) :=
  ⟨⟨rfl, by decide, by decide, rfl, by decide, rfl, by decide, by decide⟩,
    openRomGZ_md5_unique c5FS ["r"] c5RomW (c5H1 ++ c5H2) c5M (c5Path2, c5Blob2)
      rfl (by decide) (by decide) rfl (by decide) rfl (by decide) (by decide)⟩

/-! ## The resume observer (part_000: `writeResumeLogEntry`) -/

/-- Code-point lexicographic comparison (what Go's string `<` computes,
byte-wise; identical on the ASCII paths at issue). -/
def lexLe : List Char → List Char → Bool
  | [], _ => true
  | _ :: _, [] => false
  | a :: as, b :: bs =>
    if a.val < b.val then true
    else if b.val < a.val then false
    else lexLe as bs

/-- Lexicographic `≤` on strings. -/
def strLe (a b : String) : Bool := lexLe a.data b.data

/-- Insertion step of an ascending sort. -/
def insertSorted (x : String) : List String → List String
  | [] => [x]
  | y :: ys => if strLe x y then x :: y :: ys else y :: insertSorted x ys

/-- `sort.Strings`: ascending lexicographic sort. -/
def sortStrings (l : List String) : List String := l.foldr insertSorted []

/-- Go's `fmt.Fprint` on two string operands: operands are concatenated,
and a separating space is added only between operands neither of which is
a string — so two strings are written back to back, with no format
processing and no added newline. -/
def goFprintTwoStrings (a b : String) : String := a ++ b

/-- `archiveMaster.writeResumeLogEntry` (part_000): if worker 0's entry
is non-empty, sort all per-worker entries and call
`fmt.Fprint(pm.resumeLogWriter, "%s\n", comps[0])`; the returned string
is what that call appends to the resume log. -/
def writeResumeLogEntryOutput (comps : List String) : String :=
  if comps.getD 0 "" ≠ "" then
    goFprintTwoStrings "%s\n" ((sortStrings comps).getD 0 "")
  else ""

/-- **C7 (code evaluated at the failing input).** With completion entries
`["b/x.rom", "a/y.rom"]`, the observer's write is the literal bytes
`"%s\n"` followed by the smallest path with no trailing newline — not the
smallest path followed by a newline: `fmt.Fprint` (not `Fprintf`) treats
`"%s\n"` as a plain operand.  The sort itself does pick the
lexicographically smallest entry first. -/
theorem writeResumeLog_fprint_bug :
    writeResumeLogEntryOutput ["b/x.rom", "a/y.rom"] = "%s\na/y.rom" ∧
    "%s\na/y.rom" ≠ "a/y.rom\n" ∧
    sortStrings ["b/x.rom", "a/y.rom"] = ["a/y.rom", "b/x.rom"] :=
  ⟨rfl, by decide, rfl⟩

/-! ## C8: `SHA1InDepot` -/

/-- SHA1 hex of the C8 probe. -/
def c8Hex : List Char := hexEncode (List.replicate 20 3)

/-- Trailer of the blob stored in the second root for C8. -/
def c8Blob : Blob := { md5 := List.replicate 16 4, crc := [1, 2, 3, 4] }

/-- Depot contents for C8: the blob lives in root `r2` only. -/
def c8FS : DepotFS := [(pathFromSha1HexEncoding "r2" c8Hex gzipSuffix, c8Blob)]

/-- **C8 (code evaluated at the failing input).** At a depot holding the
probed blob in its second root, the `SHA1InDepot` defined in part_000
answers only the presence flag (`true`; `false` on an empty depot) and
never reads the blob trailer, while the spec-modelled variant — the one
`purgeWorker.Process` in part_001 actually calls as
`_, hh, err := depot.SHA1InDepot(...)` — returns the md5/crc trailer of
the first found blob (absent when no root holds it). -/
theorem sha1InDepot_presence_only :
    sha1InDepot c8FS ["r1", "r2"] c8Hex = true ∧
    sha1InDepot [] ["r1", "r2"] c8Hex = false ∧
    specSHA1InDepot c8FS ["r1", "r2"] c8Hex = some c8Blob ∧
    specSHA1InDepot [] ["r1", "r2"] c8Hex = none :=
  ⟨rfl, rfl, rfl, rfl⟩
